import Mathlib

/-!
Shallow embedding of `src/main.rs` of the bitmap_test repository: an
interactive palette-remap tool.  The program decodes an image to 8-bit
RGBA, collects the distinct pixel colors into a hash set, sorts them in
descending luminance order, labels them, prompts the operator for a
replacement color per label, builds a remap table, and substitutes every
pixel through that table.

Modelling choices:
* an RGBA pixel `[u8; 4]` is a structure of four `Nat` components;
* `f64` luminance is modelled exactly in `ℚ` (the decimal coefficients
  0.2126, 0.7152, 0.0722 are exact rationals; for bytes 0..255 the exact
  values of two colors are at least 1/10000 apart when distinct, far above
  f64 rounding error, and colors differing only in alpha have bitwise
  identical f64 luminance, so the comparison order is the same);
* the hash set's unspecified iteration order is an explicit parameter
  `order : List Rgba` (any duplicate-free enumeration of the distinct
  colors); Rust's stable `sort_by` is `List.mergeSort`, also stable;
* `HashMap` is an association list with `List.lookup` (keys are inserted
  once each, so first-match lookup agrees with the hash map);
* operator input lines are `List Char`; `str::trim`, `str::split(',')`
  and `u8::from_str` are modelled character by character;
* the image is a width, a height and a row-major pixel buffer.
-/

/-- One RGBA pixel, the `[u8; 4]` of the Rust code. -/
structure Rgba where
  r : Nat
  g : Nat
  b : Nat
  a : Nat
deriving DecidableEq, Repr

/-- `fn brightness(pixel: &[u8; 4]) -> f64`: luminance
`0.2126 * r + 0.7152 * g + 0.0722 * b`, alpha ignored. -/
def brightness (p : Rgba) : ℚ :=
  0.2126 * (p.r : ℚ) + 0.7152 * (p.g : ℚ) + 0.0722 * (p.b : ℚ)

/-- The comparator passed to `sort_by`: `a` may come before `b` iff
`brightness(b) <= brightness(a)` (descending brightness). -/
def brightGe (x y : Rgba) : Bool := decide (brightness y ≤ brightness x)

/-- `sorted_pixels`: the hash set's enumeration `order`, stably sorted by
descending brightness (Rust `sort_by` is a stable merge sort). -/
def sortedPixels (order : List Rgba) : List Rgba :=
  order.mergeSort brightGe

/-- The fixed label vocabulary of `main`. -/
def labels : List String :=
  ["Background White", "Highlight Bright", "Highlight Dark", "Midtone",
   "Shade Bright", "Shade Dark", "Outline", "Black"]

/-- `labels.get(i).copied().unwrap_or(&format!("Extra {}", i))`. -/
def labelOf (i : Nat) : String :=
  (labels.get? i).getD ("Extra " ++ toString i)

/-- The (label, color) pair presented at each iteration of the prompt
loop, which enumerates `sorted_pixels`. -/
def promptPairs (sorted : List Rgba) : List (String × Rgba) :=
  sorted.enum.map fun e => (labelOf e.1, e.2)

/-- Rust `str::trim` on a character list (leading and trailing
whitespace removed). -/
def trimChars (cs : List Char) : List Char :=
  ((cs.dropWhile Char.isWhitespace).reverse.dropWhile Char.isWhitespace).reverse

/-- Rust `str::split(',')`: splits at every comma, keeping empty
tokens; the empty string yields one empty token. -/
def splitComma : List Char → List (List Char)
  | [] => [[]]
  | c :: rest =>
    if c = ',' then [] :: splitComma rest
    else
      match splitComma rest with
      | t :: ts => (c :: t) :: ts
      | [] => [[c]]

/-- Decimal value of a digit list. -/
def digitsVal (ds : List Char) : Nat :=
  ds.foldl (fun acc c => acc * 10 + (c.toNat - 48)) 0

/-- Rust `u8::from_str`: an optional leading `+`, then one or more
ASCII digits, value at most 255; anything else is an error. -/
def parseByte (cs : List Char) : Option Nat :=
  let ds := match cs with
            | '+' :: rest => rest
            | _ => cs
  if ds = [] then none
  else if ds.all Char.isDigit then
    if digitsVal ds ≤ 255 then some (digitsVal ds) else none
  else none

/-- One iteration body of the prompt loop, given the raw input line and
the prompted color `p`: returns the value inserted for key `p` in the
remap table and whether the "Invalid input, keeping original." warning
is printed.  Mirrors the Rust: trim the line; empty line inserts `p`
itself; otherwise split on `,`, trim-and-parse each token keeping only
the successes (`filter_map`), and if exactly 4 values survive insert
them as the replacement, else warn and insert `p` itself. -/
def processLine (line : List Char) (p : Rgba) : Rgba × Bool :=
  let t := trimChars line
  if t = [] then (p, false)
  else
    let parts := (splitComma t).filterMap fun s => parseByte (trimChars s)
    if parts.length = 4 then
      (⟨parts.getD 0 0, parts.getD 1 0, parts.getD 2 0, parts.getD 3 0⟩, false)
    else (p, true)

/-- The remap table built by the prompt loop: one entry per color of the
sorted list, in order, consuming one operator input line per prompt (a
missing line reads as empty, as `read_line` at end of input). -/
def buildRemap : List Rgba → List (List Char) → List (Rgba × Rgba)
  | [], _ => []
  | p :: ps, ins => (p, (processLine (ins.headD []) p).1) :: buildRemap ps ins.tail

/-- The decoded 8-bit RGBA image: dimensions and row-major pixel buffer,
`data[y * width + x]` being the pixel at `(x, y)`. -/
structure Img where
  width : Nat
  height : Nat
  data : List Rgba
deriving DecidableEq, Repr

/-- The pixel at `(x, y)` of a row-major buffer. -/
def Img.pixelAt (img : Img) (x y : Nat) : Rgba :=
  img.data.getD (y * img.width + x) ⟨0, 0, 0, 0⟩

/-- `rgba_image.as_raw()`: the flat byte buffer, four bytes per pixel. -/
def Img.rawBytes (img : Img) : List Nat :=
  (img.data.map fun p => [p.r, p.g, p.b, p.a]).flatten

/-- `raw_pixels.chunks_exact(4)` regrouped into pixels (a trailing
remainder shorter than 4 is dropped, as in Rust). -/
def chunksExact4 : List Nat → List Rgba
  | a :: b :: c :: d :: rest => ⟨a, b, c, d⟩ :: chunksExact4 rest
  | _ => []

/-- The `unique_pixels` hash set as its canonical first-occurrence
enumeration: every chunk inserted, duplicates deduplicated exactly. -/
def uniqueColors (raw : List Nat) : List Rgba :=
  (chunksExact4 raw).dedup

/-- The pixel-substitution pass: an output buffer of the same dimensions
where each source pixel is replaced by its remap-table entry, defaulting
to itself (`remap.get(&rgba).unwrap_or(&rgba)`). -/
def substitute (remap : List (Rgba × Rgba)) (img : Img) : Img :=
  ⟨img.width, img.height, img.data.map fun p => (List.lookup p remap).getD p⟩

/-! ### Helper lemmas -/

/-- The exact rational luminance comparison is the corresponding
integer comparison scaled by 10000. -/
theorem brightness_le_iff (x y : Rgba) :
    brightness y ≤ brightness x ↔
      2126 * y.r + 7152 * y.g + 722 * y.b ≤
        2126 * x.r + 7152 * x.g + 722 * x.b := by
  unfold brightness
  rw [← Nat.cast_le (α := ℚ)]
  push_cast
  constructor <;> intro h <;> linarith

theorem brightGe_trans (a b c : Rgba) :
    brightGe a b → brightGe b c → brightGe a c := by
  simp only [brightGe, decide_eq_true_eq]
  exact fun h1 h2 => le_trans h2 h1

theorem brightGe_total (a b : Rgba) : brightGe a b || brightGe b a := by
  simp only [brightGe, Bool.or_eq_true, decide_eq_true_eq]
  exact le_total (brightness b) (brightness a)

theorem sortedPixels_pairwise (order : List Rgba) :
    (sortedPixels order).Pairwise fun a b => brightGe a b = true :=
  List.sorted_mergeSort brightGe_trans brightGe_total order

theorem sortedPixels_perm (order : List Rgba) :
    List.Perm (sortedPixels order) order :=
  List.mergeSort_perm order brightGe

theorem tail_getD {α : Type} (l : List α) (i : Nat) (d : α) :
    l.tail.getD i d = l.getD (i + 1) d := by
  cases l <;> rfl

theorem headD_getD {α : Type} (l : List α) (d : α) :
    l.headD d = l.getD 0 d := by
  cases l <;> rfl

theorem getD_of_lt {α : Type} (l : List α) (i : Nat) (d : α) (h : i < l.length) :
    l.getD i d = l.get ⟨i, h⟩ := by
  simp [List.getD_eq_getElem?_getD, List.getElem?_eq_getElem h]

theorem getD_mem {α : Type} (l : List α) (i : Nat) (d : α) (h : i < l.length) :
    l.getD i d ∈ l := by
  rw [getD_of_lt l i d h]
  exact l.get_mem i h

/-- Regrouping the flat byte buffer into 4-byte chunks recovers the
pixel list. -/
theorem chunksExact4_flatten (l : List Rgba) :
    chunksExact4 ((l.map fun p => [p.r, p.g, p.b, p.a]).flatten) = l := by
  induction l with
  | nil => rfl
  | cons p ps ih =>
    have h4 : ((p :: ps).map fun q => [q.r, q.g, q.b, q.a]).flatten
        = p.r :: p.g :: p.b :: p.a ::
            ((ps.map fun q => [q.r, q.g, q.b, q.a]).flatten) := by
      simp
    rw [h4]
    simp only [chunksExact4, ih]

/-- Every iteration of the prompt loop inserts exactly one entry, keyed
by the prompted color, so the table's keys are the sorted colors. -/
theorem buildRemap_keys (l : List Rgba) (ins : List (List Char)) :
    (buildRemap l ins).map Prod.fst = l := by
  induction l generalizing ins with
  | nil => rfl
  | cons p ps ih => simp [buildRemap, ih]

/-- Looking up the i-th sorted color in the table yields the value the
i-th prompt produced. -/
theorem lookup_buildRemap (l : List Rgba) (ins : List (List Char)) (i : Nat)
    (d : Rgba) (hnd : l.Nodup) (hi : i < l.length) :
    List.lookup (l.getD i d) (buildRemap l ins) =
      some (processLine (ins.getD i []) (l.getD i d)).1 := by
  induction l generalizing ins i with
  | nil => simp at hi
  | cons p ps ih =>
    match i with
    | 0 =>
      simp only [List.getD_cons_zero, buildRemap, List.lookup_cons_self,
        headD_getD]
    | i + 1 =>
      have hp : p ∉ ps := (List.nodup_cons.mp hnd).1
      have hi' : i < ps.length := Nat.lt_of_succ_lt_succ hi
      have hmem : ps.getD i d ∈ ps := getD_mem ps i d hi'
      have hne : ps.getD i d ≠ p := fun h => hp (h ▸ hmem)
      have hbeq : (ps.getD i d == p) = false := beq_eq_false_iff_ne.mpr hne
      rw [List.getD_cons_succ, ← tail_getD ins i []]
      simp only [buildRemap, List.lookup_cons, hbeq]
      exact ih ins.tail i (List.nodup_cons.mp hnd).2 hi'

/-- A `filterMap` where every element maps to a `some` returns exactly
the underlying values. -/
theorem filterMap_eq_of_map_somes {α β : Type} (f : α → Option β) :
    ∀ (l : List α) (bs : List β), l.map f = bs.map some → l.filterMap f = bs := by
  intro l
  induction l with
  | nil =>
    intro bs h
    cases bs <;> simp_all
  | cons x xs ih =>
    intro bs h
    cases bs with
    | nil => simp at h
    | cons b bs' =>
      simp only [List.map_cons, List.cons.injEq] at h
      rw [List.filterMap_cons, h.1]
      simp [ih bs' h.2]

/-- With all-blank operator input, every color of the list is mapped to
itself by the table. -/
theorem lookup_buildRemap_blank (l : List Rgba) (ins : List (List Char))
    (p : Rgba) (hblank : ∀ s ∈ ins, trimChars s = []) (hp : p ∈ l) :
    List.lookup p (buildRemap l ins) = some p := by
  induction l generalizing ins with
  | nil => simp at hp
  | cons q qs ih =>
    have hhead : trimChars (ins.head?.getD []) = [] := by
      cases ins with
      | nil => rfl
      | cons s ss => exact hblank s (List.mem_cons_self s ss)
    by_cases hpq : p = q
    · subst hpq
      simp [buildRemap, processLine, hhead]
    · have hbeq : (p == q) = false := beq_eq_false_iff_ne.mpr hpq
      have hp' : p ∈ qs := by
        rcases List.mem_cons.mp hp with h | h
        · exact absurd h hpq
        · exact h
      simp only [buildRemap, List.lookup_cons, hbeq]
      exact ih ins.tail (fun s hs => hblank s (List.mem_of_mem_tail hs)) hp'

/-! ### Claims -/

/-- C1: after deduplication, the distinct colors are sorted in
descending luminance `L = 0.2126*R + 0.7152*G + 0.0722*B` (alpha
ignored): for any hash-set enumeration `order` and any positions
`i < j` of the sorted list, the luminance at position `i` is at least
the luminance at position `j`. -/
theorem c1_sorted_descending_brightness (order : List Rgba) (i j : Nat)
    (d : Rgba) (hij : i < j) (hj : j < (sortedPixels order).length) :
    brightness ((sortedPixels order).getD j d) ≤
      brightness ((sortedPixels order).getD i d) := by
  have hi : i < (sortedPixels order).length := lt_trans hij hj
  have hp := sortedPixels_pairwise order
  rw [List.pairwise_iff_getElem] at hp
  have hb := hp i j hi hj hij
  rw [getD_of_lt _ j d hj, getD_of_lt _ i d hi]
  simpa [brightGe, List.get_eq_getElem, decide_eq_true_eq] using hb

theorem c1_witness :
    brightness ((sortedPixels [⟨0, 0, 0, 0⟩, ⟨255, 255, 255, 255⟩]).getD 1
        ⟨0, 0, 0, 0⟩) ≤
      brightness ((sortedPixels [⟨0, 0, 0, 0⟩, ⟨255, 255, 255, 255⟩]).getD 0
        ⟨0, 0, 0, 0⟩) :=
  c1_sorted_descending_brightness [⟨0, 0, 0, 0⟩, ⟨255, 255, 255, 255⟩] 0 1
    ⟨0, 0, 0, 0⟩ (by decide) (by simp [sortedPixels])

/-- C2: the output image keeps the source dimensions and every output
pixel is the remap-table entry of the source pixel's exact RGBA tuple,
or the source pixel itself when that tuple is absent from the table. -/
theorem c2_substitution_lookup (remap : List (Rgba × Rgba)) (img : Img)
    (x y : Nat) (hx : x < img.width) (hy : y < img.height)
    (hlen : img.data.length = img.width * img.height) :
    (substitute remap img).width = img.width ∧
    (substitute remap img).height = img.height ∧
    (∀ q, List.lookup (img.pixelAt x y) remap = some q →
      (substitute remap img).pixelAt x y = q) ∧
    (List.lookup (img.pixelAt x y) remap = none →
      (substitute remap img).pixelAt x y = img.pixelAt x y) := by
  have hidx : y * img.width + x < img.data.length := by
    rw [hlen]
    calc y * img.width + x < y * img.width + img.width := by omega
    _ = (y + 1) * img.width := by ring
    _ ≤ img.height * img.width := Nat.mul_le_mul_right _ hy
    _ = img.width * img.height := Nat.mul_comm _ _
  have hsub : (substitute remap img).pixelAt x y =
      (List.lookup (img.pixelAt x y) remap).getD (img.pixelAt x y) := by
    unfold substitute Img.pixelAt
    simp only [List.getD_eq_getElem?_getD, List.getElem?_map,
      List.getElem?_eq_getElem hidx, Option.map_some']
    rfl
  refine ⟨rfl, rfl, fun q hq => ?_, fun hq => ?_⟩
  · rw [hsub, hq]
    rfl
  · rw [hsub, hq]
    rfl

theorem c2_witness :
    (substitute [(⟨1, 1, 1, 1⟩, ⟨2, 2, 2, 2⟩)] ⟨1, 1, [⟨1, 1, 1, 1⟩]⟩).pixelAt
        0 0 = ⟨2, 2, 2, 2⟩ :=
  (c2_substitution_lookup [(⟨1, 1, 1, 1⟩, ⟨2, 2, 2, 2⟩)] ⟨1, 1, [⟨1, 1, 1, 1⟩]⟩
      0 0 (by decide) (by decide) (by decide)).2.2.1 ⟨2, 2, 2, 2⟩ (by decide)

/-- C3: for the color prompted at position `i`, if the trimmed input
line is exactly 4 comma-separated tokens each parsing as a byte
`b0, b1, b2, b3`, the table maps that color to `(b0, b1, b2, b3)`; if
the trimmed line is empty, the table maps the color to itself. -/
theorem c3_remap_entry (sorted : List Rgba) (inputs : List (List Char))
    (i : Nat) (d : Rgba) (hnd : sorted.Nodup) (hi : i < sorted.length) :
    (trimChars (inputs.getD i []) = [] →
      List.lookup (sorted.getD i d) (buildRemap sorted inputs)
        = some (sorted.getD i d)) ∧
    ∀ b0 b1 b2 b3 : Nat,
      ((splitComma (trimChars (inputs.getD i []))).map fun s =>
          parseByte (trimChars s)) = [some b0, some b1, some b2, some b3] →
      List.lookup (sorted.getD i d) (buildRemap sorted inputs)
        = some ⟨b0, b1, b2, b3⟩ := by
  constructor
  · intro hblank
    rw [lookup_buildRemap sorted inputs i d hnd hi]
    simp only [List.getD_eq_getElem?_getD] at hblank
    simp [processLine, hblank]
  · intro b0 b1 b2 b3 hmap
    rw [lookup_buildRemap sorted inputs i d hnd hi]
    have ht : trimChars (inputs.getD i []) ≠ [] := by
      intro h
      rw [h] at hmap
      simp [splitComma, trimChars, parseByte] at hmap
    have hparts : ((splitComma (trimChars (inputs.getD i []))).filterMap
        fun s => parseByte (trimChars s)) = [b0, b1, b2, b3] := by
      apply filterMap_eq_of_map_somes
      rw [hmap]
      rfl
    simp only [List.getD_eq_getElem?_getD] at ht hparts
    simp [processLine, ht, hparts]

theorem c3_witness :
    List.lookup (⟨9, 9, 9, 9⟩ : Rgba)
        (buildRemap [⟨9, 9, 9, 9⟩] [" 10, 20,30 ,40 ".data])
      = some ⟨10, 20, 30, 40⟩ := by
  have h := (c3_remap_entry [⟨9, 9, 9, 9⟩] [" 10, 20,30 ,40 ".data] 0
      ⟨9, 9, 9, 9⟩ (by decide) (by decide)).2 10 20 30 40 (by decide)
  simpa using h

/-- C4 counterexample: the claim says any parse failure forces the
identity mapping with a warning, but on the line `"1,2,3,4,x"` the
token `x` fails to parse, yet the code drops it (`filter_map`), sees 4
surviving values, applies the replacement `(1,2,3,4)` and prints no
warning. -/
theorem c4_counterexample :
    List.lookup (⟨9, 9, 9, 9⟩ : Rgba)
        (buildRemap [⟨9, 9, 9, 9⟩] ["1,2,3,4,x".data])
      = some ⟨1, 2, 3, 4⟩ ∧
    (processLine "1,2,3,4,x".data ⟨9, 9, 9, 9⟩).2 = false ∧
    (⟨1, 2, 3, 4⟩ : Rgba) ≠ ⟨9, 9, 9, 9⟩ := by
  decide

/-- C4 as amended: on a non-blank line the replacement is applied
exactly when the number of tokens that successfully parse as bytes is
4 (failing tokens are dropped, so they do not block the replacement);
when that number differs from 4 the color maps to itself and the
warning is printed. -/
theorem c4_amended_parse_arity (sorted : List Rgba)
    (inputs : List (List Char)) (i : Nat) (d : Rgba) (hnd : sorted.Nodup)
    (hi : i < sorted.length) (hnb : trimChars (inputs.getD i []) ≠ []) :
    (((splitComma (trimChars (inputs.getD i []))).filterMap fun s =>
        parseByte (trimChars s)).length ≠ 4 →
      List.lookup (sorted.getD i d) (buildRemap sorted inputs)
          = some (sorted.getD i d) ∧
      (processLine (inputs.getD i []) (sorted.getD i d)).2 = true) ∧
    ∀ b0 b1 b2 b3 : Nat,
      ((splitComma (trimChars (inputs.getD i []))).filterMap fun s =>
          parseByte (trimChars s)) = [b0, b1, b2, b3] →
      List.lookup (sorted.getD i d) (buildRemap sorted inputs)
          = some ⟨b0, b1, b2, b3⟩ ∧
      (processLine (inputs.getD i []) (sorted.getD i d)).2 = false := by
  constructor
  · intro hlen
    rw [lookup_buildRemap sorted inputs i d hnd hi]
    simp only [List.getD_eq_getElem?_getD] at hnb hlen
    constructor
    · simp [processLine, hnb, hlen]
    · simp [processLine, hnb, hlen]
  · intro b0 b1 b2 b3 hparts
    rw [lookup_buildRemap sorted inputs i d hnd hi]
    simp only [List.getD_eq_getElem?_getD] at hnb hparts
    constructor
    · simp [processLine, hnb, hparts]
    · simp [processLine, hnb, hparts]

theorem c4_witness :
    List.lookup (⟨9, 9, 9, 9⟩ : Rgba)
        (buildRemap [⟨9, 9, 9, 9⟩] ["1,2,3".data]) = some ⟨9, 9, 9, 9⟩ ∧
    (processLine "1,2,3".data ⟨9, 9, 9, 9⟩).2 = true := by
  have h := (c4_amended_parse_arity [⟨9, 9, 9, 9⟩] ["1,2,3".data] 0
      ⟨9, 9, 9, 9⟩ (by decide) (by decide) (by decide)).1 (by decide)
  simpa using h

/-- C5: the color at position `i` of the sorted list is presented with
label `labelOf i`, which is the `i`-th entry of the fixed vocabulary
for `i < 8` and the synthesized `"Extra i"` for `i ≥ 8`. -/
theorem c5_labeling (sorted : List Rgba) (i : Nat) (d : String × Rgba)
    (hi : i < sorted.length) :
    (promptPairs sorted).getD i d = (labelOf i, sorted.getD i d.2) ∧
    (i < 8 →
      labelOf i = ["Background White", "Highlight Bright", "Highlight Dark",
        "Midtone", "Shade Bright", "Shade Dark", "Outline", "Black"].getD i "") ∧
    (8 ≤ i → labelOf i = "Extra " ++ toString i) := by
  refine ⟨?_, fun h8 => ?_, fun h8 => ?_⟩
  · have hi' : i < (promptPairs sorted).length := by
      simpa [promptPairs] using hi
    rw [getD_of_lt _ i d hi', getD_of_lt _ i d.2 hi]
    simp [promptPairs, List.get_eq_getElem, List.getElem_enum]
  · interval_cases i <;> rfl
  · have hnone : labels[i]? = none :=
      List.getElem?_eq_none (by simpa [labels] using h8)
    simp [labelOf, hnone]

theorem c5_witness :
    (promptPairs (List.replicate 9 (⟨0, 0, 0, 0⟩ : Rgba))).getD 8
        ("", ⟨0, 0, 0, 0⟩) = ("Extra 8", ⟨0, 0, 0, 0⟩) := by
  have h := c5_labeling (List.replicate 9 (⟨0, 0, 0, 0⟩ : Rgba)) 8
      ("", ⟨0, 0, 0, 0⟩) (by decide)
  rw [h.1, h.2.2 (by decide)]
  rfl

/-- C6: the extraction pass produces exactly the distinct RGBA tuples
of the decoded image: the extracted list has no duplicates and a tuple
is extracted iff it occurs as a pixel; in particular two distinct (even
near-identical) pixel colors are both kept, never merged. -/
theorem c6_exact_distinct_colors (img : Img) :
    (uniqueColors img.rawBytes).Nodup ∧
    ∀ p : Rgba, p ∈ uniqueColors img.rawBytes ↔ p ∈ img.data := by
  refine ⟨List.nodup_dedup _, fun p => ?_⟩
  rw [uniqueColors, List.mem_dedup, Img.rawBytes, chunksExact4_flatten]

theorem c6_witness :
    (uniqueColors (Img.mk 2 1 [⟨1, 2, 3, 4⟩, ⟨1, 2, 3, 4⟩]).rawBytes).Nodup ∧
    ((⟨1, 2, 3, 4⟩ : Rgba) ∈
        uniqueColors (Img.mk 2 1 [⟨1, 2, 3, 4⟩, ⟨1, 2, 3, 4⟩]).rawBytes ↔
      (⟨1, 2, 3, 4⟩ : Rgba) ∈ (Img.mk 2 1 [⟨1, 2, 3, 4⟩, ⟨1, 2, 3, 4⟩]).data) :=
  ⟨(c6_exact_distinct_colors (Img.mk 2 1 [⟨1, 2, 3, 4⟩, ⟨1, 2, 3, 4⟩])).1,
   (c6_exact_distinct_colors (Img.mk 2 1 [⟨1, 2, 3, 4⟩, ⟨1, 2, 3, 4⟩])).2 _⟩

/-- C7: the sort has no tie-break for distinct colors of equal
luminance.  `(0,0,0,0)` and `(0,0,0,255)` are distinct, have equal
luminance, and the two hash-set enumerations `[p1, p2]` and `[p2, p1]`
— both duplicate-free and containing exactly the same colors, so both
possible iteration orders of the same image's hash set — sort to
different lists: the output order is not determined by the image
content. -/
theorem c7_tie_order_underdetermined :
    (⟨0, 0, 0, 0⟩ : Rgba) ≠ ⟨0, 0, 0, 255⟩ ∧
    brightness ⟨0, 0, 0, 0⟩ = brightness ⟨0, 0, 0, 255⟩ ∧
    List.Nodup [(⟨0, 0, 0, 0⟩ : Rgba), ⟨0, 0, 0, 255⟩] ∧
    List.Perm [(⟨0, 0, 0, 0⟩ : Rgba), ⟨0, 0, 0, 255⟩]
      [⟨0, 0, 0, 255⟩, ⟨0, 0, 0, 0⟩] ∧
    sortedPixels [⟨0, 0, 0, 0⟩, ⟨0, 0, 0, 255⟩] ≠
      sortedPixels [⟨0, 0, 0, 255⟩, ⟨0, 0, 0, 0⟩] := by
  have h1 : sortedPixels [(⟨0, 0, 0, 0⟩ : Rgba), ⟨0, 0, 0, 255⟩]
      = [⟨0, 0, 0, 0⟩, ⟨0, 0, 0, 255⟩] := by
    apply List.mergeSort_of_sorted
    refine List.Pairwise.cons (fun q hq => ?_) (List.pairwise_singleton _ _)
    rw [List.mem_singleton] at hq
    subst hq
    simp only [brightGe, decide_eq_true_eq]
    exact le_of_eq rfl
  have h2 : sortedPixels [(⟨0, 0, 0, 255⟩ : Rgba), ⟨0, 0, 0, 0⟩]
      = [⟨0, 0, 0, 255⟩, ⟨0, 0, 0, 0⟩] := by
    apply List.mergeSort_of_sorted
    refine List.Pairwise.cons (fun q hq => ?_) (List.pairwise_singleton _ _)
    rw [List.mem_singleton] at hq
    subst hq
    simp only [brightGe, decide_eq_true_eq]
    exact le_of_eq rfl
  refine ⟨by decide, rfl, by decide, List.Perm.swap _ _ _, ?_⟩
  rw [h1, h2]
  decide

/-- C8 counterexample: there is no select-one-color-by-name mode.
Typing the label name `"Black"` at the first prompt does not pick the
color labeled Black; it is treated as an RGBA value, fails to parse
(identity entry, warning printed), and the loop still walks every
labeled color: the table receives one entry per color. -/
theorem c8_counterexample :
    (buildRemap [(⟨0, 0, 0, 0⟩ : Rgba), ⟨255, 255, 255, 255⟩]
        ["Black".data]).map Prod.fst
      = [⟨0, 0, 0, 0⟩, ⟨255, 255, 255, 255⟩] ∧
    (buildRemap [(⟨0, 0, 0, 0⟩ : Rgba), ⟨255, 255, 255, 255⟩]
        ["Black".data]).map Prod.fst ≠ [⟨255, 255, 255, 255⟩] ∧
    processLine "Black".data ⟨0, 0, 0, 0⟩ = (⟨0, 0, 0, 0⟩, true) := by
  decide

/-- C8 as amended: the program has a single interaction mode — it walks
every labeled color of the sorted list in order, prompting for a
replacement; whatever the operator types, the prompt loop visits all
colors (one table entry per color, in sorted order) and the labels are
paired positionally with the sorted colors. -/
theorem c8_amended_single_walk_mode (sorted : List Rgba)
    (inputs : List (List Char)) :
    (buildRemap sorted inputs).map Prod.fst = sorted ∧
    (promptPairs sorted).map Prod.snd = sorted := by
  refine ⟨buildRemap_keys sorted inputs, ?_⟩
  rw [promptPairs, List.map_map]
  exact List.enum_map_snd sorted

/-- C9: the prompt loop inserts an entry for the prompted color on
every branch, so after the loop the table has an entry for every
distinct color of the image; hence the `unwrap_or` default of the
substitution lookup is never taken: the output data equals the mapped
lookups no matter what default value is supplied. -/
theorem c9_table_covers_image (img : Img) (order : List Rgba)
    (inputs : List (List Char)) (hcov : ∀ p ∈ img.data, p ∈ order) :
    (∀ p ∈ img.data,
      (List.lookup p (buildRemap (sortedPixels order) inputs)).isSome) ∧
    ∀ d : Rgba,
      (substitute (buildRemap (sortedPixels order) inputs) img).data =
        img.data.map fun p =>
          (List.lookup p (buildRemap (sortedPixels order) inputs)).getD d := by
  have hkey : ∀ p ∈ img.data,
      (List.lookup p (buildRemap (sortedPixels order) inputs)).isSome := by
    intro p hp
    rw [List.lookup_isSome_iff]
    have hmem : p ∈ sortedPixels order :=
      (sortedPixels_perm order).mem_iff.mpr (hcov p hp)
    rw [← buildRemap_keys (sortedPixels order) inputs] at hmem
    obtain ⟨pair, hpair, hfst⟩ := List.mem_map.mp hmem
    exact ⟨pair, hpair, by simp [hfst]⟩
  refine ⟨hkey, fun d => ?_⟩
  unfold substitute
  apply List.map_congr_left
  intro p hp
  obtain ⟨q, hq⟩ := Option.isSome_iff_exists.mp (hkey p hp)
  rw [hq]
  rfl

theorem c9_witness :
    (List.lookup (⟨5, 5, 5, 5⟩ : Rgba)
      (buildRemap (sortedPixels [⟨5, 5, 5, 5⟩]) [])).isSome :=
  (c9_table_covers_image ⟨1, 1, [⟨5, 5, 5, 5⟩]⟩ [⟨5, 5, 5, 5⟩] []
    (by decide)).1 ⟨5, 5, 5, 5⟩ (by decide)

/-- C10: if the operator enters a blank line at every prompt, the
substitution pass is the identity: the output image equals the decoded
8-bit RGBA image pixel for pixel. -/
theorem c10_all_blank_is_identity (img : Img) (order : List Rgba)
    (inputs : List (List Char)) (hcov : ∀ p ∈ img.data, p ∈ order)
    (hblank : ∀ s ∈ inputs, trimChars s = []) :
    substitute (buildRemap (sortedPixels order) inputs) img = img := by
  have hlook : ∀ p ∈ img.data,
      List.lookup p (buildRemap (sortedPixels order) inputs) = some p := by
    intro p hp
    have hmem : p ∈ sortedPixels order :=
      (sortedPixels_perm order).mem_iff.mpr (hcov p hp)
    exact lookup_buildRemap_blank _ _ p hblank hmem
  cases img with
  | mk w h data =>
    unfold substitute
    simp only [Img.mk.injEq, true_and]
    conv_rhs => rw [← List.map_id data]
    apply List.map_congr_left
    intro p hp
    rw [hlook p hp]
    rfl

theorem c10_witness :
    substitute (buildRemap (sortedPixels [⟨3, 3, 3, 3⟩]) [" ".data])
        ⟨1, 1, [⟨3, 3, 3, 3⟩]⟩ = ⟨1, 1, [⟨3, 3, 3, 3⟩]⟩ :=
  c10_all_blank_is_identity ⟨1, 1, [⟨3, 3, 3, 3⟩]⟩ [⟨3, 3, 3, 3⟩]
    [" ".data] (by decide) (by decide)
